import Mathlib

/-!
Shallow embedding of `src/nodemap.py` (the NodeMap application).

The document model of the program is two module-level dictionaries:
`MainApp.nodes : dict[int, dict]` mapping node ids to `x`/`y`/`text`
records, and `MainApp.edges : defaultdict[int, set[int]]` mapping source
ids to sets of target ids.  Python dictionaries are embedded as
association lists (`List (Int × α)`) that preserve insertion order, with
lookup/update/erase helpers mirroring `d[k]`, `d[k] = v`, `del d[k]`.
Python sets of ids are embedded as duplicate-free lists; `set.add` appends
when absent, `set.discard` filters, and all set-level claims are stated
through membership, which is independent of the representation order.

GUI-only behaviour (widgets, painting primitives, dialogs, drag and drop)
is the toolkit's; the embedding models the document-level effect of each
handler: the dialog outcome (`ok` flag and entered text, confirmation
reply) is passed as an argument, exactly as the handler receives it from
`QInputDialog.getText` / `QMessageBox.question`.
-/

/-- `APPLICATION_NAME` constant of nodemap.py. -/
def APPLICATION_NAME : String := "NodeMap"

/-- `VERSION` constant of nodemap.py. -/
def VERSION : String := "v0.0.0"

/-- `MainWindow.NODE_LABEL_MAX_WIDTH` (max pixels for a drawn label). -/
def NODE_LABEL_MAX_WIDTH : Nat := 200

/-- `MainWindow.NODE_LABEL_MAX_LENGTH` (max characters before truncation). -/
def NODE_LABEL_MAX_LENGTH : Nat := 32

/-- One entry of `app.nodes`: the per-node record `{x, y, text}`. -/
structure NodeData where
  x : Int
  y : Int
  text : String
deriving DecidableEq

/-- `app.nodes`: insertion-ordered dict from node id to node record. -/
abbrev Nodes := List (Int × NodeData)

/-- `app.edges`: insertion-ordered dict from source id to its target set
(a Python `set[int]`, embedded as a duplicate-free list). -/
abbrev Edges := List (Int × List Int)

/-- The persisted document state: the pair of the two global dicts. -/
structure Doc where
  nodes : Nodes
  edges : Edges
deriving DecidableEq

/-- `MainWindow` state relevant to the document:  open `filename`,
`unsaved_changes` flag and the `selected_nodes` selection set. -/
structure WinState where
  doc : Doc
  filename : Option String
  unsaved_changes : Bool
  selected_nodes : List Int
deriving DecidableEq

/-- A parsed document file: JSON keys `version`, `nodes`, `edges`.
On disk the dict keys are strings (`json.dump` stringifies int keys) and
`MainWindow.open` converts them back with `int(k)`; since `int(str(k)) = k`
the embedding keeps the integer keys throughout. -/
structure FileDoc where
  version : String
  nodes : Nodes
  edges : Edges
deriving DecidableEq

/-- Python `d[k]` as a total lookup: `some` of the first binding of `k`. -/
def alookup {α : Type} (k : Int) : List (Int × α) → Option α
  | [] => none
  | (k', v) :: rest => if k = k' then some v else alookup k rest

/-- Python `k in d`. -/
def containsKey {α : Type} (k : Int) (l : List (Int × α)) : Bool :=
  (alookup k l).isSome

/-- In-place mutation of the value bound to `k` (no-op when `k` absent). -/
def aupdate {α : Type} (k : Int) (f : α → α) : List (Int × α) → List (Int × α)
  | [] => []
  | (k', v) :: rest =>
    if k = k' then (k', f v) :: rest else (k', v) :: aupdate k f rest

/-- Python `del d[k]` on a present key: drops the binding of `k`. -/
def aerase {α : Type} (k : Int) : List (Int × α) → List (Int × α)
  | [] => []
  | (k', v) :: rest => if k = k' then rest else (k', v) :: aerase k rest

/-- Python `d[k] = v`: replace in place when present, append when absent. -/
def aset {α : Type} (k : Int) (v : α) : List (Int × α) → List (Int × α)
  | [] => [(k, v)]
  | (k', v') :: rest =>
    if k = k' then (k, v) :: rest else (k', v') :: aset k v rest

/-- Does the edge map contain the directed edge `a → b`? -/
def edgeMemB (es : Edges) (a b : Int) : Bool :=
  match alookup a es with
  | some ts => decide (b ∈ ts)
  | none => false

/-- Python `set.add`: append the element when it is not yet a member. -/
def insertTgt (y : Int) (ts : List Int) : List Int :=
  if y ∈ ts then ts else ts ++ [y]

/-- `app.edges[x].add(y)`: defaultdict access (creates an empty set for a
missing key) followed by `set.add`. -/
def dgetAdd (es : Edges) (x y : Int) : Edges :=
  if containsKey x es then aupdate x (insertTgt y) es else es ++ [(x, [y])]

/-- `app.edges[x].discard(y)`: defaultdict access (creates an empty set for
a missing key) followed by `set.discard`, which tolerates absent members. -/
def dgetDiscard (es : Edges) (x y : Int) : Edges :=
  if containsKey x es then
    aupdate x (fun ts => ts.filter (fun t => decide (t ≠ y))) es
  else es ++ [(x, [])]

/-- `itertools.product(sel, repeat=2)`: all ordered pairs, in order. -/
def ordered_pairs (sel : List Int) : List (Int × Int) :=
  (sel.map (fun a => sel.map (fun b => (a, b)))).flatten

/-- `MainWindow.connect_nodes` on the edge map: for every ordered pair of
distinct ids in the selection, `app.edges[src].add(trg)`. -/
def connect_nodes (es : Edges) (sel : List Int) : Edges :=
  (ordered_pairs sel).foldl
    (fun e p => if p.1 ≠ p.2 then dgetAdd e p.1 p.2 else e) es

/-- `MainWindow.disconnect_nodes` on the edge map: for every ordered pair of
distinct ids in the selection, `app.edges[src].discard(trg)`. -/
def disconnect_nodes (es : Edges) (sel : List Int) : Edges :=
  (ordered_pairs sel).foldl
    (fun e p => if p.1 ≠ p.2 then dgetDiscard e p.1 p.2 else e) es

/-- `os.path.basename` (POSIX): everything after the last slash. -/
def basename (p : String) : String :=
  ((p.splitOn "/").getLast?).getD ""

/-- The `file_info` string built by `MainWindow.update_window_title`. -/
def file_info (filename : Option String) : String :=
  match filename with
  | some f => basename f ++ " (" ++ f ++ ")"
  | none => "[No Name]"

/-- `MainWindow.update_window_title`: the title string as a function of the
open filename and the unsaved-changes flag. -/
def window_title (filename : Option String) (unsaved : Bool) : String :=
  (if unsaved then "* " else "") ++ file_info filename ++ " - " ++ APPLICATION_NAME

/-- `MainWindow.mark_as_unsaved`: sets the flag (and refreshes the title,
which is `window_title s.filename true` afterwards). -/
def mark_as_unsaved (s : WinState) : WinState :=
  { s with unsaved_changes := true }

/-- The `node_id = max(app.nodes.keys() or [0]) + 1` expression of
`MainWindow.add_node` ("poor man's autoincrement"). -/
def next_id (nodes : Nodes) : Int :=
  match nodes.map Prod.fst with
  | [] => 0 + 1
  | k :: ks => ks.foldl max k + 1

/-- `MainWindow.add_node`: create a node record at the click position with
the auto-generated id, a default label, and an empty outgoing edge set. -/
def add_node (s : WinState) (px py : Int) : WinState :=
  let node_id := next_id s.doc.nodes
  let nodes' := aset node_id
    { x := px, y := py, text := "Node " ++ toString node_id } s.doc.nodes
  let edges' := aset node_id [] s.doc.edges
  mark_as_unsaved { s with doc := { nodes := nodes', edges := edges' } }

/-- `NodeWidget.move` document effect: write the new coordinates back into
the node record and mark unsaved.  `none` models the `KeyError` raised by
`app.nodes[self.node_id]` when the id is absent. -/
def moveNode (s : WinState) (nid px py : Int) : Option WinState :=
  if containsKey nid s.doc.nodes then
    let nodes' := aupdate nid (fun nd => { nd with x := px, y := py }) s.doc.nodes
    some (mark_as_unsaved { s with doc := { s.doc with nodes := nodes' } })
  else none

/-- `NodeWidget.rename` document effect.  `ok`/`text` are the results of
`QInputDialog.getText`; the label is assigned exactly when `ok` is true,
and `mark_as_unsaved` runs afterwards in every case.  `none` models the
`KeyError` of the initial `app.nodes[self.node_id]` access. -/
def renameAction (s : WinState) (nid : Int) (ok : Bool) (text : String) :
    Option WinState :=
  match alookup nid s.doc.nodes with
  | none => none
  | some _ =>
    let nodes' :=
      if ok then aupdate nid (fun nd => { nd with text := text }) s.doc.nodes
      else s.doc.nodes
    some (mark_as_unsaved { s with doc := { s.doc with nodes := nodes' } })

/-- Outcome of `NodeWidget.delete`: normal completion, or a `KeyError`
escaping from `app.nodes[self.node_id]` (before the dialog) or from
`del app.edges[self.node_id]` (after the node was already deleted).  The
carried state is the global state at that point. -/
inductive DeleteOutcome where
  | ok (s : WinState)
  | raisedAtNodes (s : WinState)
  | raisedAtEdges (s : WinState)
deriving DecidableEq

/-- `NodeWidget.delete` document effect.  `confirmed` is the result of the
`QMessageBox.question` confirmation.  On confirmation the code runs
`del app.nodes[nid]`, then `del app.edges[nid]` — a plain `del`, which does
NOT invoke the defaultdict factory and raises `KeyError` when `nid` has no
entry — then discards `nid` from every remaining target set.
`mark_as_unsaved` runs after the `if`, so it also runs when the user
declines, but not when the `KeyError` escapes. -/
def deleteAction (s : WinState) (nid : Int) (confirmed : Bool) : DeleteOutcome :=
  if containsKey nid s.doc.nodes then
    if confirmed then
      let nodes' := aerase nid s.doc.nodes
      if containsKey nid s.doc.edges then
        let edges' := (aerase nid s.doc.edges).map
          (fun p => (p.1, p.2.filter (fun t => decide (t ≠ nid))))
        .ok (mark_as_unsaved { s with doc := { nodes := nodes', edges := edges' } })
      else
        .raisedAtEdges { s with doc := { nodes := nodes', edges := s.doc.edges } }
    else
      .ok (mark_as_unsaved s)
  else
    .raisedAtNodes s

/-- `MainWindow.connect_nodes` at window level. -/
def connectAction (s : WinState) : WinState :=
  mark_as_unsaved { s with doc :=
    { s.doc with edges := connect_nodes s.doc.edges s.selected_nodes } }

/-- `MainWindow.disconnect_nodes` at window level. -/
def disconnectAction (s : WinState) : WinState :=
  mark_as_unsaved { s with doc :=
    { s.doc with edges := disconnect_nodes s.doc.edges s.selected_nodes } }

/-- `MainWindow.new`: empty document, no filename, flag cleared.  The code
does not clear the selection. -/
def newAction (s : WinState) : WinState :=
  { doc := { nodes := [], edges := [] }, filename := none,
    unsaved_changes := false, selected_nodes := s.selected_nodes }

/-- `MainWindow.save` with a bound filename: serialize
`{nodes, edges: listified sets, version}` and clear the flag.  `none`
models the unbound-filename path, which delegates to the `save_as` file
dialog (a platform service). -/
def saveAction (s : WinState) : Option (FileDoc × WinState) :=
  match s.filename with
  | some _ =>
    some ({ version := VERSION, nodes := s.doc.nodes, edges := s.doc.edges },
      { s with unsaved_changes := false })
  | none => none

/-- Characterizes every file `MainWindow.save` can write for document `d`:
the version string, the node dict verbatim, and per source id the target
set serialized by `list(v)` — i.e. in an arbitrary (set-iteration) order,
so any permutation of each target list. -/
def savedFileOf (d : Doc) (f : FileDoc) : Prop :=
  f.version = VERSION ∧ f.nodes = d.nodes ∧
    List.Forall₂ (fun (p q : Int × List Int) => p.1 = q.1 ∧ p.2.Perm q.2)
      d.edges f.edges

/-- `MainWindow.open` document effect, on an already parsed file `f` of
name `fn`.  When the version mismatches, `confirmOverride` is the user's
answer to the confirmation dialog; declining returns with no state change
(`none`).  Node ids come back through `int(k)` and each edge list through
`set(v)` (embedded as `dedup`). -/
def openAction (s : WinState) (fn : String) (f : FileDoc)
    (confirmOverride : Bool) : Option WinState :=
  if f.version = VERSION ∨ confirmOverride then
    some { doc := { nodes := f.nodes,
                    edges := f.edges.map (fun p => (p.1, p.2.dedup)) },
           filename := some fn, unsaved_changes := false,
           selected_nodes := s.selected_nodes }
  else none

/-- Label alignment chosen by `MainWindow.draw_node_labels`. -/
inductive LabelAlign where
  | center
  | left
deriving DecidableEq

/-- The rendering decision `draw_node_labels` makes for one label. -/
structure LabelRender where
  text : String
  width : Nat
  alignment : LabelAlign
deriving DecidableEq

/-- The truncation step of `draw_node_labels`: labels longer than
`NODE_LABEL_MAX_LENGTH - 3` characters are cut to the first
`NODE_LABEL_MAX_LENGTH - 4` characters plus `"..."`. -/
def truncate_label (t : String) : String :=
  if t.length > NODE_LABEL_MAX_LENGTH - 3 then
    (t.take (NODE_LABEL_MAX_LENGTH - 4)) ++ "..."
  else t

/-- `MainWindow.draw_node_labels` per label: truncate, measure with the
font metrics (`metricsWidth`, a platform service passed as a function),
cap the width at `NODE_LABEL_MAX_WIDTH`, and center only when
`label_width < widget_width`. -/
def draw_node_label (metricsWidth : String → Nat) (t : String) : LabelRender :=
  let label_text := truncate_label t
  let label_width := metricsWidth label_text
  let widget_width := min label_width NODE_LABEL_MAX_WIDTH
  { text := label_text, width := widget_width,
    alignment := if label_width < widget_width then .center else .left }

/-- Total number of directed edges stored in an edge map (the sum of the
target-set sizes). -/
def edgeCount (es : Edges) : Nat :=
  (es.map (fun p => p.2.length)).sum

/-- The label of node `k` in document `d` (`app.nodes[k]['text']`). -/
def nodeText (d : Doc) (k : Int) : Option String :=
  (alookup k d.nodes).map NodeData.text

/-- A sample node record. -/
def nodeA : NodeData := { x := 0, y := 0, text := "A" }

/-- A one-node window state used for concrete evaluations. -/
def w0 : WinState :=
  { doc := { nodes := [(1, nodeA)], edges := [(1, [])] },
    filename := none, unsaved_changes := false, selected_nodes := [] }

/-- A window state as produced by opening a file whose `edges` object has
no entry for node 1 (node 2 points at node 1): node 1 is present in the
node set but absent from the edge mapping. -/
def sBug : WinState :=
  { doc := { nodes := [(1, nodeA), (2, { x := 5, y := 5, text := "B" })],
             edges := [(2, [1])] },
    filename := none, unsaved_changes := false, selected_nodes := [] }

/-- The result of renaming node 1 of `w0` to `"B"` with a confirmed
dialog. -/
def w0ren : WinState :=
  { doc := { nodes := [(1, { x := 0, y := 0, text := "B" })], edges := [(1, [])] },
    filename := none, unsaved_changes := true, selected_nodes := [] }

/-- The result of moving node 1 of `w0` to position (9, 9). -/
def w0mv : WinState :=
  { doc := { nodes := [(1, { x := 9, y := 9, text := "A" })], edges := [(1, [])] },
    filename := none, unsaved_changes := true, selected_nodes := [] }

/-- A one-node window state with a bound filename, as after a Save As. -/
def w0f : WinState :=
  { doc := { nodes := [(1, nodeA)], edges := [(1, [])] },
    filename := some "doc.json", unsaved_changes := true, selected_nodes := [] }

/-- The file `MainWindow.save` writes for `w0f`. -/
def fd0 : FileDoc :=
  { version := VERSION, nodes := [(1, nodeA)], edges := [(1, [])] }

/-- `w0f` right after its successful save. -/
def w0fsaved : WinState :=
  { doc := { nodes := [(1, nodeA)], edges := [(1, [])] },
    filename := some "doc.json", unsaved_changes := false, selected_nodes := [] }

/-- The window state after opening `fd0` from `"g.json"` on top of `w0`. -/
def w0opened : WinState :=
  { doc := { nodes := [(1, nodeA)], edges := [(1, [])] },
    filename := some "g.json", unsaved_changes := false, selected_nodes := [] }

/-- A three-node document with edges 1 → {2,3} and 3 → {1}, bound to
`"g.json"`. -/
def wRT : WinState :=
  { doc := { nodes := [(1, nodeA), (2, { x := 5, y := 5, text := "B" }),
                       (3, { x := 7, y := 7, text := "C" })],
             edges := [(1, [2, 3]), (2, []), (3, [1])] },
    filename := some "g.json", unsaved_changes := true, selected_nodes := [] }

/-- A file `save` can write for `wRT`: node 1's target set is serialized
in the other iteration order `[3, 2]`. -/
def fRT : FileDoc :=
  { version := VERSION,
    nodes := [(1, nodeA), (2, { x := 5, y := 5, text := "B" }),
              (3, { x := 7, y := 7, text := "C" })],
    edges := [(1, [3, 2]), (2, []), (3, [1])] }

/-- The canonical file `saveAction` produces for `wRT`. -/
def fdRT : FileDoc :=
  { version := VERSION,
    nodes := [(1, nodeA), (2, { x := 5, y := 5, text := "B" }),
              (3, { x := 7, y := 7, text := "C" })],
    edges := [(1, [2, 3]), (2, []), (3, [1])] }

/-- The window state obtained by opening `fRT` from `"g.json"`. -/
def wRTopened : WinState :=
  { doc := { nodes := [(1, nodeA), (2, { x := 5, y := 5, text := "B" }),
                       (3, { x := 7, y := 7, text := "C" })],
             edges := [(1, [3, 2]), (2, []), (3, [1])] },
    filename := some "g.json", unsaved_changes := false, selected_nodes := [] }

/-! ### Helper lemmas about the dict embedding -/

theorem alookup_aupdate {α : Type} (b : Int) (f : α → α) (a : Int)
    (l : List (Int × α)) :
    alookup a (aupdate b f l) =
      if a = b then (alookup b l).map f else alookup a l := by
  induction l with
  | nil => simp [alookup, aupdate]
  | cons hd tl ih =>
    obtain ⟨k, v⟩ := hd
    by_cases hbk : b = k
    · subst hbk
      by_cases hab : a = b
      · subst hab; simp [alookup, aupdate]
      · simp [alookup, aupdate, hab]
    · by_cases hab : a = k
      · subst hab
        have : ¬(a = b) := fun h => hbk h.symm
        simp [alookup, aupdate, hbk, this]
      · simp [alookup, aupdate, hbk, hab, ih]

theorem alookup_append {α : Type} (a : Int) (l m : List (Int × α)) :
    alookup a (l ++ m) =
      match alookup a l with
      | some v => some v
      | none => alookup a m := by
  induction l with
  | nil => simp [alookup]
  | cons hd tl ih =>
    obtain ⟨k, v⟩ := hd
    by_cases hab : a = k
    · simp [alookup, hab]
    · simp [alookup, hab, ih]

theorem alookup_aset {α : Type} (b : Int) (v : α) (a : Int)
    (l : List (Int × α)) :
    alookup a (aset b v l) = if a = b then some v else alookup a l := by
  induction l with
  | nil => simp [alookup, aset]
  | cons hd tl ih =>
    obtain ⟨k, w⟩ := hd
    by_cases hbk : b = k
    · subst hbk
      by_cases hab : a = b
      · subst hab; simp [alookup, aset]
      · simp [alookup, aset, hab]
    · by_cases hab : a = k
      · subst hab
        have : ¬(a = b) := fun h => hbk h.symm
        simp [alookup, aset, hbk, this]
      · simp [alookup, aset, hbk, hab, ih]

theorem alookup_aerase_ne {α : Type} (b a : Int) (hab : a ≠ b)
    (l : List (Int × α)) :
    alookup a (aerase b l) = alookup a l := by
  induction l with
  | nil => simp [alookup, aerase]
  | cons hd tl ih =>
    obtain ⟨k, v⟩ := hd
    by_cases hbk : b = k
    · subst hbk
      have : ¬(a = b) := hab
      simp [alookup, aerase, this]
    · simp [alookup, aerase, hbk, ih]

theorem alookup_aerase_self {α : Type} (b : Int) (l : List (Int × α))
    (hnd : (l.map Prod.fst).Nodup) :
    alookup b (aerase b l) = none := by
  induction l with
  | nil => simp [alookup, aerase]
  | cons hd tl ih =>
    obtain ⟨k, v⟩ := hd
    simp only [List.map_cons, List.nodup_cons] at hnd
    by_cases hbk : b = k
    · subst hbk
      simp only [aerase, if_pos rfl]
      cases h : alookup b tl with
      | none => exact h
      | some w =>
        exfalso
        exact hnd.1 (by
          clear ih hnd
          induction tl with
          | nil => simp [alookup] at h
          | cons hd' tl' ih' =>
            obtain ⟨k', v'⟩ := hd'
            by_cases hbk' : b = k'
            · subst hbk'; simp
            · simp only [alookup, if_neg hbk'] at h
              simp [ih' h])
    · simp [alookup, aerase, hbk, ih hnd.2]

theorem alookup_isSome_of_mem_keys {α : Type} (a : Int) (l : List (Int × α))
    (h : a ∈ l.map Prod.fst) : (alookup a l).isSome := by
  induction l with
  | nil => simp at h
  | cons hd tl ih =>
    obtain ⟨k, v⟩ := hd
    by_cases hab : a = k
    · simp [alookup, hab]
    · simp only [List.map_cons, List.mem_cons] at h
      rcases h with h | h


      · exact absurd h hab
      · simp [alookup, hab, ih h]

theorem mem_keys_of_alookup_isSome {α : Type} (a : Int) (l : List (Int × α))
    (h : (alookup a l).isSome) : a ∈ l.map Prod.fst := by
  induction l with
  | nil => simp [alookup] at h
  | cons hd tl ih =>
    obtain ⟨k, v⟩ := hd
    by_cases hab : a = k
    · simp [hab]
    · simp only [alookup, if_neg hab] at h
      simp [ih h]

theorem edgeMemB_dgetAdd (es : Edges) (x y a b : Int) :
    edgeMemB (dgetAdd es x y) a b = (edgeMemB es a b || (x = a ∧ y = b : Bool)) := by
  unfold dgetAdd
  by_cases hc : containsKey x es
  · simp only [if_pos hc]
    by_cases hax : a = x
    · subst hax
      unfold edgeMemB
      rw [alookup_aupdate, if_pos rfl]
      cases h : alookup a es with
      | none => simp [containsKey, h] at hc
      | some ts =>
        simp only [Option.map_some']
        unfold insertTgt
        by_cases hy : y ∈ ts
        · rw [if_pos hy]
          by_cases hyb : y = b
          · subst hyb; simp [hy]
          · simp [hyb]
        · rw [if_neg hy]
          by_cases hyb : y = b
          · subst hyb; simp
          · have hby : ¬b = y := fun h => hyb h.symm
            simp [List.mem_append, hyb, hby]
    · unfold edgeMemB
      rw [alookup_aupdate, if_neg hax]
      have : ¬(x = a) := fun h => hax h.symm
      simp [this]
  · simp only [if_neg hc]
    unfold edgeMemB
    rw [alookup_append]
    by_cases hax : a = x
    · subst hax
      have h : alookup a es = none := by
        cases h' : alookup a es with
        | none => rfl
        | some ts => simp [containsKey, h'] at hc
      simp only [h]
      by_cases hyb : y = b
      · subst hyb; simp [alookup]
      · have hby : ¬b = y := fun h => hyb h.symm
        simp [alookup, hby, hyb]
    · have : ¬(x = a) := fun h => hax h.symm
      cases h' : alookup a es with
      | none => simp [alookup, hax, this]
      | some ts => simp [this]

theorem edgeMemB_dgetDiscard (es : Edges) (x y a b : Int) :
    edgeMemB (dgetDiscard es x y) a b =
      (edgeMemB es a b && !(x = a ∧ y = b : Bool)) := by
  unfold dgetDiscard
  by_cases hc : containsKey x es
  · simp only [if_pos hc]
    by_cases hax : a = x
    · subst hax
      unfold edgeMemB
      rw [alookup_aupdate, if_pos rfl]
      cases h : alookup a es with
      | none => simp [containsKey, h] at hc
      | some ts =>
        simp only [Option.map_some']
        by_cases hyb : y = b
        · subst hyb; simp [List.mem_filter]
        · have hby : ¬b = y := fun h => hyb h.symm
          simp [List.mem_filter, hby, hyb]
    · unfold edgeMemB
      rw [alookup_aupdate, if_neg hax]
      have : ¬(x = a) := fun h => hax h.symm
      simp [this]
  · simp only [if_neg hc]
    unfold edgeMemB
    rw [alookup_append]
    by_cases hax : a = x
    · subst hax
      have h : alookup a es = none := by
        cases h' : alookup a es with
        | none => rfl
        | some ts => simp [containsKey, h'] at hc
      simp [h, alookup]
    · have : ¬(x = a) := fun h => hax h.symm
      cases h' : alookup a es with
      | none => simp [alookup, hax, this]
      | some ts => simp [this]

theorem mem_ordered_pairs (sel : List Int) (a b : Int) :
    (a, b) ∈ ordered_pairs sel ↔ a ∈ sel ∧ b ∈ sel := by
  unfold ordered_pairs
  simp only [List.mem_flatten, List.mem_map]
  constructor
  · rintro ⟨l, ⟨x, hx, rfl⟩, hm⟩
    obtain ⟨y, hy, hxy⟩ := List.mem_map.mp hm
    obtain ⟨h1, h2⟩ := Prod.mk.injEq .. ▸ hxy
    cases hxy
    exact ⟨hx, hy⟩
  · rintro ⟨ha, hb⟩
    exact ⟨sel.map (fun b => (a, b)), ⟨a, ha, rfl⟩, List.mem_map.mpr ⟨b, hb, rfl⟩⟩

theorem edgeMemB_connect_fold (pairs : List (Int × Int)) (es : Edges) (a b : Int) :
    edgeMemB (pairs.foldl (fun e p => if p.1 ≠ p.2 then dgetAdd e p.1 p.2 else e) es) a b
      = (edgeMemB es a b ||
          pairs.any (fun p => p.1 = a ∧ p.2 = b ∧ p.1 ≠ p.2 : (Int × Int) → Bool)) := by
  induction pairs generalizing es with
  | nil => simp
  | cons p rest ih =>
    obtain ⟨x, y⟩ := p
    simp only [List.foldl_cons, List.any_cons]
    by_cases hxy : x ≠ y
    · simp only [if_pos hxy]
      rw [ih, edgeMemB_dgetAdd]
      by_cases hxa : x = a
      · subst hxa
        by_cases hyb : y = b
        · subst hyb; simp [hxy]
        · simp [hyb]
      · simp [hxa]
    · simp only [if_neg hxy]
      rw [ih]
      simp only [ne_eq, not_not] at hxy
      simp [hxy]

theorem edgeMemB_disconnect_fold (pairs : List (Int × Int)) (es : Edges) (a b : Int) :
    edgeMemB (pairs.foldl (fun e p => if p.1 ≠ p.2 then dgetDiscard e p.1 p.2 else e) es) a b
      = (edgeMemB es a b &&
          !pairs.any (fun p => p.1 = a ∧ p.2 = b ∧ p.1 ≠ p.2 : (Int × Int) → Bool)) := by
  induction pairs generalizing es with
  | nil => simp
  | cons p rest ih =>
    obtain ⟨x, y⟩ := p
    simp only [List.foldl_cons, List.any_cons]
    by_cases hxy : x ≠ y
    · simp only [if_pos hxy]
      rw [ih, edgeMemB_dgetDiscard]
      by_cases hxa : x = a
      · subst hxa
        by_cases hyb : y = b
        · subst hyb; simp [hxy]
        · simp [hyb]
      · simp [hxa]
    · simp only [if_neg hxy]
      rw [ih]
      simp only [ne_eq, not_not] at hxy
      simp [hxy]

/-! ### Claim theorems -/

/-- Claim C3: `connect_nodes` adds exactly the directed edges `(a, b)` for
every ordered pair of distinct ids `a`, `b` in the selection (so a
3-element selection yields 6 edges and no self-loop is ever added), and
running it a second time on the same selection leaves the edge set
unchanged. -/
theorem connect_nodes_adds_exactly_ordered_pairs (es : Edges) (sel : List Int) :
    (∀ a b : Int, edgeMemB (connect_nodes es sel) a b = true ↔
      (edgeMemB es a b = true ∨ (a ∈ sel ∧ b ∈ sel ∧ a ≠ b)))
    ∧ (∀ a b : Int,
        edgeMemB (connect_nodes (connect_nodes es sel) sel) a b
          = edgeMemB (connect_nodes es sel) a b)
    ∧ edgeCount (connect_nodes [] [1, 2, 3]) = 6 := by
  have key : ∀ (es' : Edges) (a b : Int),
      edgeMemB (connect_nodes es' sel) a b = true ↔
        (edgeMemB es' a b = true ∨ (a ∈ sel ∧ b ∈ sel ∧ a ≠ b)) := by
    intro es' a b
    unfold connect_nodes
    rw [edgeMemB_connect_fold]
    simp only [Bool.or_eq_true, List.any_eq_true, decide_eq_true_eq]
    constructor
    · rintro (h | ⟨⟨x, y⟩, hmem, h1, h2, hne⟩)
      · exact Or.inl h
      · subst h1; subst h2
        obtain ⟨ha, hb⟩ := (mem_ordered_pairs sel x y).mp hmem
        exact Or.inr ⟨ha, hb, hne⟩
    · rintro (h | ⟨ha, hb, hne⟩)
      · exact Or.inl h
      · exact Or.inr ⟨(a, b), (mem_ordered_pairs sel a b).mpr ⟨ha, hb⟩, rfl, rfl, hne⟩
  refine ⟨key es, ?_, by decide⟩
  intro a b
  rw [Bool.eq_iff_iff, key (connect_nodes es sel) a b, key es a b]
  tauto

/-- Claim C4: `disconnect_nodes` removes exactly the directed edges between
ordered pairs of distinct ids in the selection and leaves every other edge
untouched.  The operation is total (Python `set.discard` never raises on an
absent member, and the defaultdict access never raises on an absent key),
so running it when some or all of those pair edges are absent cannot raise. -/
theorem disconnect_nodes_removes_exactly_selected_pairs (es : Edges) (sel : List Int) :
    ∀ a b : Int, edgeMemB (disconnect_nodes es sel) a b = true ↔
      (edgeMemB es a b = true ∧ ¬(a ∈ sel ∧ b ∈ sel ∧ a ≠ b)) := by
  intro a b
  unfold disconnect_nodes
  rw [edgeMemB_disconnect_fold]
  simp only [Bool.and_eq_true, Bool.not_eq_true', List.any_eq_false, decide_eq_true_eq]
  constructor
  · rintro ⟨h, hall⟩
    refine ⟨h, fun ⟨ha, hb, hne⟩ => ?_⟩
    exact hall (a, b) ((mem_ordered_pairs sel a b).mpr ⟨ha, hb⟩) ⟨rfl, rfl, hne⟩
  · rintro ⟨h, hnp⟩
    refine ⟨h, fun p hmem hp => ?_⟩
    obtain ⟨x, y⟩ := p
    obtain ⟨h1, h2, hne⟩ := hp
    subst h1; subst h2
    obtain ⟨ha, hb⟩ := (mem_ordered_pairs sel x y).mp hmem
    exact hnp ⟨ha, hb, hne⟩

theorem le_foldl_max (ks : List Int) (a : Int) : a ≤ ks.foldl max a := by
  induction ks generalizing a with
  | nil => exact le_refl a
  | cons k ks ih => exact le_trans (le_max_left a k) (ih (max a k))

theorem mem_le_foldl_max (ks : List Int) (a x : Int) (h : x ∈ ks) :
    x ≤ ks.foldl max a := by
  induction ks generalizing a with
  | nil => cases h
  | cons k ks ih =>
    rcases List.mem_cons.mp h with rfl | h'
    · exact le_trans (le_max_right a x) (le_foldl_max ks (max a x))
    · exact ih (max a k) h'

theorem foldl_max_mem (ks : List Int) (a : Int) :
    ks.foldl max a = a ∨ ks.foldl max a ∈ ks := by
  induction ks generalizing a with
  | nil => exact Or.inl rfl
  | cons k ks ih =>
    rcases ih (max a k) with h | h
    · rcases max_choice a k with hm | hm
      · exact Or.inl (by rw [List.foldl_cons, h, hm])
      · exact Or.inr (by rw [List.foldl_cons, h, hm]; exact List.mem_cons_self k ks)
    · exact Or.inr (List.mem_cons_of_mem k h)

/-- Claim C8: the auto-generated id used by `add_node` is `next_id`, which
is one greater than the current maximum node id (1 for an empty node set)
and therefore is never an id already present in the node set. -/
theorem add_node_id_fresh (s : WinState) (px py : Int) :
    (add_node s px py).doc.nodes =
      aset (next_id s.doc.nodes)
        { x := px, y := py, text := "Node " ++ toString (next_id s.doc.nodes) }
        s.doc.nodes
    ∧ (s.doc.nodes = [] → next_id s.doc.nodes = 1)
    ∧ (s.doc.nodes ≠ [] → ∃ m ∈ s.doc.nodes.map Prod.fst,
        (∀ k ∈ s.doc.nodes.map Prod.fst, k ≤ m) ∧ next_id s.doc.nodes = m + 1)
    ∧ containsKey (next_id s.doc.nodes) s.doc.nodes = false := by
  refine ⟨rfl, ?_, ?_, ?_⟩
  · intro h
    simp [next_id, h]
  · intro h
    cases hm : s.doc.nodes.map Prod.fst with
    | nil => exact absurd (List.map_eq_nil_iff.mp hm) h
    | cons k ks =>
      refine ⟨ks.foldl max k, ?_, ?_, ?_⟩
      · rcases foldl_max_mem ks k with h' | h'
        · rw [h']; exact List.mem_cons_self k ks
        · exact List.mem_cons_of_mem k h'
      · intro x hx
        rcases List.mem_cons.mp hx with rfl | hx'
        · exact le_foldl_max ks x
        · exact mem_le_foldl_max ks k x hx'
      · simp only [next_id]
        rw [hm]
  · cases hc : containsKey (next_id s.doc.nodes) s.doc.nodes
    · rfl
    · exfalso
      have hmem : next_id s.doc.nodes ∈ s.doc.nodes.map Prod.fst :=
        mem_keys_of_alookup_isSome _ _ hc
      cases hm : s.doc.nodes.map Prod.fst with
      | nil => rw [hm] at hmem; cases hmem
      | cons k ks =>
        have hid : next_id s.doc.nodes = ks.foldl max k + 1 := by
          simp only [next_id]; rw [hm]
        rw [hm] at hmem
        rcases List.mem_cons.mp hmem with heq | hmem'
        · have h1 : k ≤ ks.foldl max k := le_foldl_max ks k
          omega
        · have h1 : next_id s.doc.nodes ≤ ks.foldl max k :=
            mem_le_foldl_max ks k _ hmem'
          omega

/-- Claim C8 witness: concrete evaluations of `add_node`/`next_id` on a
two-node document (ids 1 and 2) and on the empty document. -/
theorem add_node_id_fresh_witness :
    next_id sBug.doc.nodes = 2 + 1
    ∧ containsKey (next_id sBug.doc.nodes) sBug.doc.nodes = false
    ∧ next_id ([] : Nodes) = 1 := by
  have h := add_node_id_fresh sBug 3 4
  have h0 := add_node_id_fresh
    { doc := { nodes := [], edges := [] }, filename := none,
      unsaved_changes := false, selected_nodes := [] } 0 0
  obtain ⟨m, hmem, hble, hsum⟩ := h.2.2.1 (by decide)
  have hm2 : m = 2 := by
    have h1 : (2 : Int) ≤ m := hble 2 (by decide)
    have hk : sBug.doc.nodes.map Prod.fst = [1, 2] := by decide
    rw [hk] at hmem
    have : m = 1 ∨ m = 2 := by simpa using hmem
    omega
  rw [hm2] at hsum
  exact ⟨hsum, h.2.2.2, h0.2.1 rfl⟩

/-- Claim C1 counterexample: confirming the rename dialog with EMPTY input
does change the label — the code only tests the `ok` flag, not the text, so
node 1's label goes from `"A"` to `""`. -/
theorem rename_confirmed_empty_changes_label :
    nodeText w0.doc 1 = some "A"
    ∧ (renameAction w0 1 true "").map (fun s' => nodeText s'.doc 1)
        = some (some "")
    ∧ ("" : String) ≠ "A" := by
  refine ⟨by decide, by decide, by decide⟩

/-- Claim C1 (amended): cancelling the rename dialog leaves the document
unchanged; confirming it sets exactly the target node's label to the
entered text — whatever that text is, including the empty string — and
changes no other node's data and no edges. -/
theorem rename_updates_only_target_label (s : WinState) (nid : Int)
    (ok : Bool) (t : String) :
    (∀ s', renameAction s nid false t = some s' → s'.doc = s.doc)
    ∧ (∀ s' k, renameAction s nid true t = some s' → k ≠ nid →
        alookup k s'.doc.nodes = alookup k s.doc.nodes)
    ∧ (∀ s' nd, renameAction s nid true t = some s' →
        alookup nid s.doc.nodes = some nd →
        alookup nid s'.doc.nodes = some { nd with text := t })
    ∧ (∀ s', renameAction s nid ok t = some s' → s'.doc.edges = s.doc.edges) := by
  refine ⟨?_, ?_, ?_, ?_⟩
  · intro s' h
    unfold renameAction at h
    split at h
    · exact absurd h (by simp)
    · simp only [if_neg Bool.false_ne_true] at h
      injection h with h'
      subst h'
      rfl
  · intro s' k h hk
    unfold renameAction at h
    split at h
    · exact absurd h (by simp)
    · simp only [if_pos rfl] at h
      injection h with h'
      subst h'
      show alookup k (aupdate nid _ s.doc.nodes) = alookup k s.doc.nodes
      rw [alookup_aupdate, if_neg hk]
  · intro s' nd h hnd
    unfold renameAction at h
    split at h
    · exact absurd h (by simp)
    · simp only [if_pos rfl] at h
      injection h with h'
      subst h'
      show alookup nid (aupdate nid _ s.doc.nodes) = _
      rw [alookup_aupdate, if_pos rfl, hnd]
      rfl
  · intro s' h
    unfold renameAction at h
    split at h
    · exact absurd h (by simp)
    · cases hok : ok
      · rw [hok] at h   -- keep the shape uniform; `split` below handles both
        injection h with h'
        subst h'
        rfl
      · rw [hok] at h
        injection h with h'
        subst h'
        rfl

/-- Claim C1 witness: the amended rename behaviour evaluated on the
one-node document `w0` (cancel keeps the document; confirming `"B"`
rewrites exactly node 1's label). -/
theorem rename_updates_only_target_label_witness :
    (mark_as_unsaved w0).doc = w0.doc
    ∧ alookup 2 w0ren.doc.nodes = alookup 2 w0.doc.nodes
    ∧ alookup 1 w0ren.doc.nodes = some { nodeA with text := "B" }
    ∧ w0ren.doc.edges = w0.doc.edges := by
  have h := rename_updates_only_target_label w0 1 true "B"
  have hsome : renameAction w0 1 true "B" = some w0ren := by decide
  exact ⟨h.1 (mark_as_unsaved w0) (by decide),
         h.2.1 w0ren 2 hsome (by decide),
         h.2.2.1 w0ren nodeA hsome (by decide),
         h.2.2.2 w0ren hsome⟩

/-- Claim C10: Rename and Delete call `mark_as_unsaved` even when the user
cancels the rename dialog or declines the delete confirmation: the
document is left completely unchanged, yet the unsaved flag becomes true
and the window title gains the `"* "` decoration. -/
theorem cancelled_rename_delete_still_mark_unsaved (s : WinState) (nid : Int)
    (t : String) (h : containsKey nid s.doc.nodes = true) :
    renameAction s nid false t = some (mark_as_unsaved s)
    ∧ deleteAction s nid false = .ok (mark_as_unsaved s)
    ∧ (mark_as_unsaved s).doc = s.doc
    ∧ (mark_as_unsaved s).unsaved_changes = true
    ∧ window_title s.filename true
        = "* " ++ file_info s.filename ++ " - " ++ APPLICATION_NAME := by
  have hsome : (alookup nid s.doc.nodes).isSome := h
  obtain ⟨nd, hnd⟩ := Option.isSome_iff_exists.mp hsome
  refine ⟨?_, ?_, rfl, rfl, ?_⟩
  · unfold renameAction
    rw [hnd]
    simp only [if_neg Bool.false_ne_true]
  · unfold deleteAction
    rw [if_pos h]
    simp only [Bool.false_eq_true, if_false]
  · simp [window_title]

/-- Claim C10 witness: the cancelled actions evaluated on `w0`. -/
theorem cancelled_rename_delete_still_mark_unsaved_witness :
    renameAction w0 1 false "ignored" = some (mark_as_unsaved w0)
    ∧ deleteAction w0 1 false = .ok (mark_as_unsaved w0)
    ∧ (mark_as_unsaved w0).doc = w0.doc
    ∧ (mark_as_unsaved w0).unsaved_changes = true
    ∧ window_title w0.filename true
        = "* " ++ file_info w0.filename ++ " - " ++ APPLICATION_NAME :=
  cancelled_rename_delete_still_mark_unsaved w0 1 "ignored" (by decide)

/-- Claim C9: for a node id present in the node set but absent from the
edge mapping (as after opening a file whose `edges` object omits it —
`open` creates entries only for keys present in the file, and `del`
bypasses the defaultdict factory), confirming Delete raises `KeyError` at
`del app.edges[nid]`, and at that point the node has already been removed
from the node set while the edges (and the unsaved flag) are untouched:
the failed delete is not atomic. -/
theorem delete_without_edges_entry_raises_nonatomically (s : WinState)
    (nid : Int) (h1 : containsKey nid s.doc.nodes = true)
    (h2 : containsKey nid s.doc.edges = false)
    (hnd : (s.doc.nodes.map Prod.fst).Nodup) :
    deleteAction s nid true =
      .raisedAtEdges { s with doc :=
        { nodes := aerase nid s.doc.nodes, edges := s.doc.edges } }
    ∧ containsKey nid (aerase nid s.doc.nodes) = false := by
  constructor
  · simp [deleteAction, h1, h2]
  · simp [containsKey, alookup_aerase_self nid s.doc.nodes hnd]

/-- Claim C9 witness: the non-atomic failure evaluated on `sBug`, whose
node 1 has no entry in the edge mapping. -/
theorem delete_without_edges_entry_raises_nonatomically_witness :
    deleteAction sBug 1 true =
      .raisedAtEdges { sBug with doc :=
        { nodes := aerase 1 sBug.doc.nodes, edges := sBug.doc.edges } }
    ∧ containsKey 1 (aerase 1 sBug.doc.nodes) = false :=
  delete_without_edges_entry_raises_nonatomically sBug 1 (by decide) (by decide)
    (by decide)

/-- Claim C2 evaluated at a failing input: in `sBug` node 1 is present but
has no edge-mapping entry (edges hold only 2 → 1), so confirming Delete
stops with a `KeyError`: node 1 is gone from the node set, but the edge
2 → 1 still references the deleted id — the promised clean-up never
happens. -/
theorem delete_leaves_dangling_reference_example :
    deleteAction sBug 1 true =
      .raisedAtEdges { sBug with doc :=
        { nodes := [(2, { x := 5, y := 5, text := "B" })], edges := [(2, [1])] } }
    ∧ edgeMemB [(2, [1])] 2 1 = true := by
  exact ⟨by decide, by decide⟩

/-- Claim C6 refuted (code bug): whatever the font metrics and the label,
`draw_node_labels` compares `label_width < min label_width 200`, which is
never true, so every label — including every label that fits well inside
the 200-pixel cap — is left-aligned and none is ever centered.  The width
cap itself does hold. -/
theorem node_labels_always_left_aligned (metricsWidth : String → Nat)
    (t : String) :
    (draw_node_label metricsWidth t).alignment = LabelAlign.left
    ∧ (draw_node_label metricsWidth t).width ≤ NODE_LABEL_MAX_WIDTH := by
  constructor
  · have h : ¬(metricsWidth (truncate_label t) <
        min (metricsWidth (truncate_label t)) NODE_LABEL_MAX_WIDTH) :=
      Nat.not_lt.mpr (min_le_left _ _)
    simp [draw_node_label, h]
  · simp [draw_node_label]

/-- Claim C7: every mutating action that runs to completion (add node,
move, rename — even cancelled —, delete — even declined —, connect,
disconnect) leaves the unsaved-changes flag true, and a successful save, a
fresh load, and New leave it false. -/
theorem unsaved_changes_flag_behavior (s : WinState) (px py nid mx my : Int)
    (ok conf cv : Bool) (t fn : String) (f : FileDoc) :
    (add_node s px py).unsaved_changes = true
    ∧ (∀ s', moveNode s nid mx my = some s' → s'.unsaved_changes = true)
    ∧ (∀ s', renameAction s nid ok t = some s' → s'.unsaved_changes = true)
    ∧ (∀ s', deleteAction s nid conf = .ok s' → s'.unsaved_changes = true)
    ∧ (connectAction s).unsaved_changes = true
    ∧ (disconnectAction s).unsaved_changes = true
    ∧ (∀ f' s', saveAction s = some (f', s') → s'.unsaved_changes = false)
    ∧ (∀ s', openAction s fn f cv = some s' → s'.unsaved_changes = false)
    ∧ (newAction s).unsaved_changes = false := by
  refine ⟨rfl, ?_, ?_, ?_, rfl, rfl, ?_, ?_, rfl⟩
  · intro s' h
    unfold moveNode at h
    split at h
    · injection h with h'; subst h'; rfl
    · exact absurd h (by simp)
  · intro s' h
    unfold renameAction at h
    split at h
    · exact absurd h (by simp)
    · injection h with h'; subst h'; rfl
  · intro s' h
    unfold deleteAction at h
    split at h
    · split at h
      · split at h
        · injection h with h'; subst h'; rfl
        · exact DeleteOutcome.noConfusion h
      · injection h with h'; subst h'; rfl
    · exact DeleteOutcome.noConfusion h
  · intro f' s' h
    unfold saveAction at h
    split at h
    · injection h with h'
      rw [Prod.mk.injEq] at h'
      obtain ⟨-, h2⟩ := h'
      subst h2
      rfl
    · exact absurd h (by simp)
  · intro s' h
    unfold openAction at h
    split at h
    · injection h with h'; subst h'; rfl
    · exact absurd h (by simp)

/-- Claim C7 witness: each action of the conjunction evaluated on concrete
states (`w0` has no bound filename; `w0f` has one, so its save succeeds). -/
theorem unsaved_changes_flag_behavior_witness :
    (add_node w0 3 4).unsaved_changes = true
    ∧ moveNode w0 1 9 9 = some w0mv ∧ w0mv.unsaved_changes = true
    ∧ renameAction w0 1 true "B" = some w0ren ∧ w0ren.unsaved_changes = true
    ∧ deleteAction w0 1 false = .ok (mark_as_unsaved w0)
    ∧ (mark_as_unsaved w0).unsaved_changes = true
    ∧ (connectAction w0).unsaved_changes = true
    ∧ (disconnectAction w0).unsaved_changes = true
    ∧ saveAction w0f = some (fd0, w0fsaved) ∧ w0fsaved.unsaved_changes = false
    ∧ openAction w0 "g.json" fd0 false = some w0opened
    ∧ w0opened.unsaved_changes = false
    ∧ (newAction w0).unsaved_changes = false := by
  have h := unsaved_changes_flag_behavior w0 3 4 1 9 9 true false false "B" "g.json" fd0
  have hf := unsaved_changes_flag_behavior w0f 3 4 1 9 9 true false false "B" "g.json" fd0
  have ho := unsaved_changes_flag_behavior w0 3 4 1 9 9 true false false "B" "g.json" fd0
  refine ⟨h.1, by decide, ?_, by decide, ?_, by decide, ?_, ?_, ?_, by decide, ?_,
    by decide, ?_, ?_⟩
  · exact h.2.1 w0mv (by decide)
  · exact h.2.2.1 w0ren (by decide)
  · exact h.2.2.2.1 (mark_as_unsaved w0) (by decide)
  · exact h.2.2.2.2.1
  · exact h.2.2.2.2.2.1
  · exact hf.2.2.2.2.2.2.1 fd0 w0fsaved (by decide)
  · exact ho.2.2.2.2.2.2.2.1 w0opened (by decide)
  · exact h.2.2.2.2.2.2.2.2

theorem alookup_map_dedup (es : Edges) (a : Int) :
    alookup a (es.map (fun p => (p.1, p.2.dedup))) =
      (alookup a es).map List.dedup := by
  induction es with
  | nil => simp [alookup]
  | cons hd tl ih =>
    obtain ⟨k, v⟩ := hd
    by_cases hak : a = k
    · simp [alookup, hak]
    · simp [alookup, hak, ih]

theorem edgeMemB_map_dedup (es : Edges) (a b : Int) :
    edgeMemB (es.map (fun p => (p.1, p.2.dedup))) a b = edgeMemB es a b := by
  unfold edgeMemB
  rw [alookup_map_dedup]
  cases alookup a es with
  | none => rfl
  | some ts => simp [List.mem_dedup]

theorem edgeMemB_of_forall2_perm {l₁ l₂ : Edges}
    (h : List.Forall₂ (fun (p q : Int × List Int) => p.1 = q.1 ∧ p.2.Perm q.2)
      l₁ l₂) (a b : Int) :
    edgeMemB l₂ a b = edgeMemB l₁ a b := by
  induction h with
  | nil => rfl
  | cons hr hrest ih =>
    rename_i p q tl₁ tl₂
    obtain ⟨k₁, ts₁⟩ := p
    obtain ⟨k₂, ts₂⟩ := q
    obtain ⟨hk, hperm⟩ := hr
    cases hk
    unfold edgeMemB alookup
    by_cases hak : a = k₁
    · simp only [if_pos hak]
      simp [hperm.mem_iff]
    · simp only [if_neg hak]
      exact ih

/-- Claim C5: saving a document writes a file with the same version, the
node dict verbatim and each target set in an arbitrary order
(`savedFileOf`), and opening any such file yields a document with the
identical node dict (hence identical ids, positions and labels) and the
same directed edge adjacency, independent of the order in which edge
targets were serialized. -/
theorem save_open_roundtrip (s s2 : WinState) (fn : String) (f : FileDoc)
    (hs : savedFileOf s.doc f) :
    (∀ f' s', saveAction s = some (f', s') → savedFileOf s.doc f')
    ∧ ∃ s', openAction s2 fn f false = some s'
        ∧ s'.doc.nodes = s.doc.nodes
        ∧ ∀ a b : Int, edgeMemB s'.doc.edges a b = edgeMemB s.doc.edges a b := by
  obtain ⟨hv, hn, he⟩ := hs
  constructor
  · intro f' s' h
    unfold saveAction at h
    split at h
    · injection h with h'
      rw [Prod.mk.injEq] at h'
      obtain ⟨h1, -⟩ := h'
      subst h1
      exact ⟨rfl, rfl, List.forall₂_same.mpr (fun x _ => ⟨rfl, List.Perm.refl _⟩)⟩
    · exact absurd h (by simp)
  · refine ⟨{ doc := { nodes := f.nodes,
                       edges := f.edges.map (fun p => (p.1, p.2.dedup)) },
              filename := some fn, unsaved_changes := false,
              selected_nodes := s2.selected_nodes }, ?_, ?_, ?_⟩
    · unfold openAction
      rw [if_pos (Or.inl hv)]
    · exact hn
    · intro a b
      show edgeMemB (f.edges.map (fun p => (p.1, p.2.dedup))) a b = _
      rw [edgeMemB_map_dedup, edgeMemB_of_forall2_perm he]

/-- Claim C5 witness: the round trip evaluated on the three-node document
`wRT` with the file `fRT`, whose target list for node 1 is serialized in
the opposite order. -/
theorem save_open_roundtrip_witness :
    savedFileOf wRT.doc fdRT
    ∧ openAction w0 "g.json" fRT false = some wRTopened
    ∧ wRTopened.doc.nodes = wRT.doc.nodes
    ∧ edgeMemB wRTopened.doc.edges 1 2 = edgeMemB wRT.doc.edges 1 2
    ∧ edgeMemB wRTopened.doc.edges 1 3 = edgeMemB wRT.doc.edges 1 3 := by
  have hs : savedFileOf wRT.doc fRT :=
    ⟨rfl, rfl, .cons ⟨rfl, by decide⟩
      (.cons ⟨rfl, by decide⟩ (.cons ⟨rfl, by decide⟩ .nil))⟩
  obtain ⟨hsave, s', h1, h2, h3⟩ := save_open_roundtrip wRT w0 "g.json" fRT hs
  have h1' : openAction w0 "g.json" fRT false = some wRTopened := by decide
  have hseq : s' = wRTopened := by
    rw [h1] at h1'
    exact Option.some.inj h1'
  subst hseq
  exact ⟨hsave fdRT { wRT with unsaved_changes := false } (by decide),
    h1, h2, h3 1 2, h3 1 3⟩
